import Mathlib

/-!
Verification development for the `extract-mgo-schema` tool.

The repository contains two near-identical Go variants of the schema
extractor; the primary one is `extract_mgo/main.go`, the other (an older
copy) is embedded below under the `Variant` prefix.

Modelling choices:
* A decoded BSON value (`interface{}` in Go) becomes the inductive
  `BsonValue`; the `nil` interface value is the constructor `VNull`.
  Payloads that the walker never inspects (floats, times, binary data)
  carry opaque tokens.
* `bson.D` (an ordered list of `bson.DocElem{Name, Value}`) becomes
  `BsonD`; `[]interface{}` becomes `BsonArr`.  Both are spelled as
  bespoke list types so that the walker is structurally recursive.
* The global `fieldSet` map, the accumulated `*docSchema` and the
  diagnostic log lines are bundled in a single explicit state
  `WalkState`; a `map[string]struct{}` is modelled by its key list,
  membership being the only operation used.
* Go `switch x.(type)` cases do NOT fall through; a case with an empty
  statement list does nothing.  The embedding reproduces that literally:
  only the case that carries a statement body records an entry.
-/

/-- One schema entry: the Go struct `docField{Name, Type}`.
(The Go field `Type` is rendered `Typ`, `Type` being reserved in Lean.) -/
structure docField where
  Name : String
  Typ : String
deriving DecidableEq, Repr

/-- Go declaration: `type docSchema []docField`. -/
abbrev docSchema := List docField

/-- Go constant: `MaxTryRecords = 100`. -/
def MaxTryRecords : Nat := 100

mutual
/-- A decoded BSON field value, after mgo's `interface{}` decoding.
One constructor per Go type named in the walker's type switch, plus
`VNull` for the nil interface and `VOther` (carrying the runtime type
name that would be logged) for every type the switch does not name. -/
inductive BsonValue : Type where
  | VNull : BsonValue
  | VInt (n : Int) : BsonValue
  | VInt8 (n : Int) : BsonValue
  | VInt16 (n : Int) : BsonValue
  | VInt32 (n : Int) : BsonValue
  | VInt64 (n : Int) : BsonValue
  | VUint (n : Nat) : BsonValue
  | VUint8 (n : Nat) : BsonValue
  | VUint16 (n : Nat) : BsonValue
  | VUint32 (n : Nat) : BsonValue
  | VUint64 (n : Nat) : BsonValue
  | VFloat32 (bits : Nat) : BsonValue
  | VFloat64 (bits : Nat) : BsonValue
  | VString (s : String) : BsonValue
  | VBool (b : Bool) : BsonValue
  | VTime (ticks : Int) : BsonValue
  | VObjectId (id : String) : BsonValue
  | VBinary (kind : Nat) (data : List Nat) : BsonValue
  | VBytes (data : List Nat) : BsonValue
  | VDoc (d : BsonD) : BsonValue
  | VArr (xs : BsonArr) : BsonValue
  | VOther (typeName : String) : BsonValue

/-- Model of `bson.D`: an ordered list of `bson.DocElem{Name, Value}`. -/
inductive BsonD : Type where
  | nil : BsonD
  | cons (Name : String) (Value : BsonValue) (rest : BsonD) : BsonD

/-- Model of `[]interface{}`: the element list of an array value. -/
inductive BsonArr : Type where
  | nil : BsonArr
  | cons (v : BsonValue) (rest : BsonArr) : BsonArr
end

/-- The walker's mutable context: the global `fieldSet` membership map
(its key list), the accumulated `*docSchema`, and the diagnostic log
lines (field name shown, runtime type name) from the `default` case. -/
structure WalkState where
  fieldSet : List String
  schema : docSchema
  logs : List (String × String)
deriving DecidableEq, Repr

/-- The all-empty context a collection scan starts from. -/
def emptyWalkState : WalkState := ⟨[], [], []⟩

/-- Function `addIfNotExists(schema, field)`: skip when the name is already in
`fieldSet`, otherwise record membership and append the entry. -/
def addIfNotExists (st : WalkState) (field : docField) : WalkState :=
  if field.Name ∈ st.fieldSet then st
  else { st with fieldSet := field.Name :: st.fieldSet,
                 schema := st.schema ++ [field] }

/-- The path composition both walkers inline: the local name when the
parent path is empty, otherwise `parent ++ "." ++ localName`. -/
def childName (pfx localName : String) : String :=
  if pfx = "" then localName else pfx ++ "." ++ localName

/-- The Go check `v == nil` on a decoded value. -/
def isNullValue : BsonValue → Bool
  | .VNull => true
  | _ => false

mutual
/-- Function `getSchema(prefix, object, schema)` from `extract_mgo/main.go`.
The type-switch cases `int` … `uint32`, `float32` and `bson.Binary`
have empty statement lists in the Go source and therefore record
nothing; only `uint64`, `float64`, … carry bodies. -/
def getSchema (pfx : String) (object : BsonValue) (st : WalkState) : WalkState :=
  match object with
  | .VNull => st
  | .VInt _ => st
  | .VInt8 _ => st
  | .VInt16 _ => st
  | .VInt32 _ => st
  | .VInt64 _ => st
  | .VUint _ => st
  | .VUint8 _ => st
  | .VUint16 _ => st
  | .VUint32 _ => st
  | .VUint64 _ => addIfNotExists st ⟨pfx, "INTEGER"⟩
  | .VFloat32 _ => st
  | .VFloat64 _ => addIfNotExists st ⟨pfx, "DECIMAL"⟩
  | .VString _ => addIfNotExists st ⟨pfx, "STRING"⟩
  | .VBool _ => addIfNotExists st ⟨pfx, "BOOL"⟩
  | .VTime _ => addIfNotExists st ⟨pfx, "TIME"⟩
  | .VObjectId _ => addIfNotExists st ⟨pfx, "OBJECTID"⟩
  | .VBinary _ _ => st
  | .VBytes _ => addIfNotExists st ⟨pfx, "BINARY"⟩
  | .VDoc d => getStructureSchema pfx d st
  | .VArr xs => getSchemaElems (pfx ++ "[]") xs 0 (addIfNotExists st ⟨pfx, "ARRAY"⟩)
  | .VOther typeName =>
      let st1 := addIfNotExists st ⟨pfx, "UNKNOWN"⟩
      { st1 with logs := st1.logs ++ [(pfx, typeName)] }

/-- The `for i, v := range object.([]interface{})` loop of `getSchema`:
walk element `v` while `i < MaxTryRecords`, otherwise `break`. -/
def getSchemaElems (pfx : String) (xs : BsonArr) (i : Nat) (st : WalkState) : WalkState :=
  match xs with
  | .nil => st
  | .cons v rest =>
      if i < MaxTryRecords then getSchemaElems pfx rest (i + 1) (getSchema pfx v st)
      else st

/-- Function `getStructureSchema(prefix, object, schema)` from
`extract_mgo/main.go`: walk the fields in order, skipping nil values. -/
def getStructureSchema (pfx : String) (object : BsonD) (st : WalkState) : WalkState :=
  match object with
  | .nil => st
  | .cons n v rest =>
      if isNullValue v then getStructureSchema pfx rest st
      else getStructureSchema pfx rest (getSchema (childName pfx n) v st)
end

/-- What `c.Find(bson.M{}).Limit(MaxTryRecords).Sort("-_id").All(&results)`
can come back with: a (possibly empty) result list, the distinguished
`mgo.ErrNotFound`, or any other retrieval error. -/
inductive FetchResult : Type where
  | results (docs : List BsonD) : FetchResult
  | errNotFound : FetchResult
  | errOther : FetchResult

/-- Function `genCollectionSchema(c)`: reset `fieldSet`, fetch the sample;
`ErrNotFound` yields the empty schema, any other error hits `log.Fatal`
(modelled as `none` — the run aborts with no output), otherwise every
fetched document is walked from the root in order. -/
def genCollectionSchema : FetchResult → Option docSchema
  | .errNotFound => some []
  | .errOther => none
  | .results docs =>
      some (docs.foldl (fun st result => getStructureSchema "" result st) emptyWalkState).schema

/-- The comparator `docSchema.Less(i, j)` compares entry names with `strings.Compare`,
byte-wise lexicographic on UTF-8; on a Lean `String` that order is the
character (code point) order, so entry `i` sorts before `j` iff
`Name i < Name j`.  Sorting below is by the reflexive closure `≤`. -/
def fieldNameLe (a b : docField) : Prop := a.Name ≤ b.Name

instance : DecidableRel fieldNameLe := fun a b => by
  unfold fieldNameLe; infer_instance

instance : IsTotal docField fieldNameLe :=
  ⟨fun a b => le_total a.Name b.Name⟩

instance : IsTrans docField fieldNameLe :=
  ⟨fun _ _ _ hab hbc => le_trans hab hbc⟩

/-- Function `sortCollectionSchema` applied to one collection's schema:
`sort.Sort(colSchema[1:])` sorts everything after the first entry in
place, and schemas of length ≤ 1 are left alone.  `sort.Sort` promises
exactly a permutation of its input that is sorted by the provided
`Less`; a concrete comparison sort realises that contract here. -/
def sortCollectionSchema (schema : docSchema) : docSchema :=
  match schema with
  | [] => []
  | first :: rest => first :: List.insertionSort fieldNameLe rest

/-- Is this value neither an embedded document nor an array?
(Such values make a document "flat".) -/
def scalarValue : BsonValue → Bool
  | .VDoc _ => false
  | .VArr _ => false
  | _ => true

/-- A flat document: none of its field values is an embedded document
or an array. -/
def flatDoc : BsonD → Bool
  | .nil => true
  | .cons _ v rest => scalarValue v && flatDoc rest

mutual
/-- Function `getStructureSchema(prefix, object, schema)` of the second source
variant (`src/unnamed/part_000`), which inlines the type switch in the
field loop; the switch body is factored out as `Variant.classifyValue`.
Differences from the primary variant: array elements are not walked
(only the ARRAY entry is recorded) and the `default`-case log line
shows the local field name, not the full path. -/
def Variant.getStructureSchema (object : BsonD) (pfx : String) (st : WalkState) : WalkState :=
  match object with
  | .nil => st
  | .cons n v rest =>
      if isNullValue v then Variant.getStructureSchema rest pfx st
      else Variant.getStructureSchema rest pfx (Variant.classifyValue v (childName pfx n) n st)

/-- The inlined type switch of the second variant, for one field whose
computed path is `name` and whose local name is `n`.  As in the primary
variant, the cases `int` … `uint32`, `float32` and `bson.Binary` have
empty statement lists and record nothing.  (The recursive argument is
placed first — the Go parameter order is `(prefix, object, schema)` —
so that Lean compiles the recursion faithfully.) -/
def Variant.classifyValue (v : BsonValue) (name n : String) (st : WalkState) : WalkState :=
  match v with
  | .VNull => st
  | .VInt _ => st
  | .VInt8 _ => st
  | .VInt16 _ => st
  | .VInt32 _ => st
  | .VInt64 _ => st
  | .VUint _ => st
  | .VUint8 _ => st
  | .VUint16 _ => st
  | .VUint32 _ => st
  | .VUint64 _ => addIfNotExists st ⟨name, "INTEGER"⟩
  | .VFloat32 _ => st
  | .VFloat64 _ => addIfNotExists st ⟨name, "DECIMAL"⟩
  | .VString _ => addIfNotExists st ⟨name, "STRING"⟩
  | .VBool _ => addIfNotExists st ⟨name, "BOOL"⟩
  | .VTime _ => addIfNotExists st ⟨name, "TIME"⟩
  | .VObjectId _ => addIfNotExists st ⟨name, "OBJECTID"⟩
  | .VBinary _ _ => st
  | .VBytes _ => addIfNotExists st ⟨name, "BINARY"⟩
  | .VDoc d => Variant.getStructureSchema d name st
  | .VArr _ => addIfNotExists st ⟨name, "ARRAY"⟩
  | .VOther typeName =>
      let st1 := addIfNotExists st ⟨name, "UNKNOWN"⟩
      { st1 with logs := st1.logs ++ [(n, typeName)] }
end

/-- Agreement of two walker states on everything the schema is built
from: the membership set and the accumulated entries (the diagnostic
log lines may differ — the two variants format them differently). -/
def sameEntries (s t : WalkState) : Prop :=
  s.fieldSet = t.fieldSet ∧ s.schema = t.schema

/-- First sample document of the spec's end-to-end example:
`{"a": 1, "b": {"c": "x"}}` (the integer literals decode as Go `int`). -/
def sampleDoc1 : BsonD :=
  .cons "a" (.VInt 1) (.cons "b" (.VDoc (.cons "c" (.VString "x") .nil)) .nil)

/-- Second sample document of the spec's end-to-end example:
`{"a": 2, "b": {"c": "y"}, "d": [1,2,3]}`. -/
def sampleDoc2 : BsonD :=
  .cons "a" (.VInt 2)
    (.cons "b" (.VDoc (.cons "c" (.VString "y") .nil))
      (.cons "d" (.VArr (.cons (.VInt 1) (.cons (.VInt 2) (.cons (.VInt 3) .nil)))) .nil))

/-- Take the first `n` elements of an array value. -/
def BsonArr.take : Nat → BsonArr → BsonArr
  | 0, _ => .nil
  | _, .nil => .nil
  | n + 1, .cons v rest => .cons v (BsonArr.take n rest)

/-- Walk every element of an array value against the fixed derived
path `pfx`, in order. -/
def walkElems (pfx : String) (xs : BsonArr) (st : WalkState) : WalkState :=
  match xs with
  | .nil => st
  | .cons v rest => walkElems pfx rest (getSchema pfx v st)

/-- The element loop starting at index `i ≤ MaxTryRecords` walks
exactly the first `MaxTryRecords - i` elements. -/
theorem getSchemaElems_eq_take (pfx : String) (xs : BsonArr) :
    ∀ i st, i ≤ MaxTryRecords →
      getSchemaElems pfx xs i st = walkElems pfx (BsonArr.take (MaxTryRecords - i) xs) st := by
  cases xs with
  | nil =>
      intro i st _
      cases h : MaxTryRecords - i <;> simp [getSchemaElems, BsonArr.take, walkElems, h]
  | cons v rest =>
      intro i st h
      by_cases hi : i < MaxTryRecords
      · have h1 : MaxTryRecords - i = (MaxTryRecords - (i + 1)) + 1 := by omega
        rw [getSchemaElems, if_pos hi, h1]
        rw [getSchemaElems_eq_take pfx rest (i + 1) (getSchema pfx v st) (by omega)]
        rfl
      · have h0 : MaxTryRecords - i = 0 := by omega
        rw [getSchemaElems, if_neg hi, h0]
        rfl

/-- C1: the claim says every native signed/unsigned integer width
records exactly one INTEGER entry for the field's path.  In the Go type
switch the cases `int` … `uint32` (and `int64`) carry empty statement
lists, and Go switch cases do not fall through, so only a `uint64`
value records an entry; a field holding a Go `int` (what mgo decodes a
BSON int32 to) or an `int64` contributes nothing at all. -/
theorem intField_records_no_entry :
    getStructureSchema "" (.cons "a" (.VInt 1) .nil) emptyWalkState = emptyWalkState ∧
    getSchema "a" (.VInt 1) emptyWalkState = emptyWalkState ∧
    getSchema "a" (.VInt64 7) emptyWalkState = emptyWalkState ∧
    getSchema "a" (.VUint32 3) emptyWalkState = emptyWalkState ∧
    getSchema "a" (.VUint64 1) emptyWalkState = ⟨["a"], [⟨"a", "INTEGER"⟩], []⟩ :=
  ⟨rfl, rfl, rfl, rfl, rfl⟩

/-- C2: the spec's end-to-end example expects the four entries
`a: INTEGER`, `b.c: STRING`, `d: ARRAY`, `d[]: INTEGER` from the
two-document sample.  The code actually produces only `b.c: STRING`
and `d: ARRAY`: the `int`-valued fields `a` and the elements of `d`
match the empty `case int:` of the type switch and are dropped. -/
theorem twoDocSample_actual_entries :
    genCollectionSchema (.results [sampleDoc1, sampleDoc2])
      = some [⟨"b.c", "STRING"⟩, ⟨"d", "ARRAY"⟩] ∧
    genCollectionSchema (.results [sampleDoc1, sampleDoc2])
      ≠ some [⟨"a", "INTEGER"⟩, ⟨"b.c", "STRING"⟩, ⟨"d", "ARRAY"⟩, ⟨"d[]", "INTEGER"⟩] :=
  ⟨rfl, by decide⟩

/-- C3: for any schema of length at least one, sorting leaves the first
entry in its first-discovered position and replaces the remainder by a
permutation of itself that is sorted ascending by name (the `≤` of
`fieldNameLe`, case-sensitive lexical comparison of the names). -/
theorem sortCollectionSchema_first_fixed_rest_sorted (first : docField) (rest : List docField) :
    (sortCollectionSchema (first :: rest)).head? = some first ∧
    List.Perm (sortCollectionSchema (first :: rest)).tail rest ∧
    List.Sorted fieldNameLe (sortCollectionSchema (first :: rest)).tail := by
  refine ⟨rfl, ?_, ?_⟩
  · simpa [sortCollectionSchema] using List.perm_insertionSort fieldNameLe rest
  · simpa [sortCollectionSchema] using List.sorted_insertionSort fieldNameLe rest

/-- C7: a nil field value is skipped before classification — walking a
document containing it changes nothing for that field, `getSchema` on a
nil value is the identity, and the document `{"x": null}` yields no
entries at all. -/
theorem null_fields_skipped (pfx n : String) (rest : BsonD) (st : WalkState) :
    getStructureSchema pfx (.cons n .VNull rest) st = getStructureSchema pfx rest st ∧
    getSchema pfx .VNull st = st ∧
    getStructureSchema "" (.cons "x" .VNull .nil) emptyWalkState = emptyWalkState :=
  ⟨rfl, rfl, rfl⟩

/-- C8: a value of a type the switch does not name hits the `default`
case: an UNKNOWN entry is recorded, a diagnostic (path, runtime type
name) is appended, and the walk goes on — there is no failure channel.
But the claim "every non-null value is classified with exactly one
tag" fails on the code: an `int8` value matches the empty `case int8:`
and records no tag (and no entry, and no diagnostic) at all. -/
theorem unknown_logged_but_int8_untagged :
    getSchema "x" (.VOther "chan int") emptyWalkState
      = ⟨["x"], [⟨"x", "UNKNOWN"⟩], [("x", "chan int")]⟩ ∧
    getSchema "x" (.VInt8 5) emptyWalkState = emptyWalkState :=
  ⟨rfl, rfl⟩

/-- The accumulator invariant: recorded entry names are distinct, and
every recorded name is a member of the `fieldSet` membership map. -/
def SchemaInv (st : WalkState) : Prop :=
  (st.schema.map docField.Name).Nodup ∧ ∀ f ∈ st.schema, f.Name ∈ st.fieldSet

theorem schemaInv_empty : SchemaInv emptyWalkState :=
  ⟨List.nodup_nil, by intro f hf; simp [emptyWalkState] at hf⟩

theorem addIfNotExists_mem (st : WalkState) (field : docField)
    (h : field.Name ∈ st.fieldSet) : addIfNotExists st field = st := by
  simp [addIfNotExists, h]

theorem addIfNotExists_not_mem (st : WalkState) (field : docField)
    (h : field.Name ∉ st.fieldSet) :
    addIfNotExists st field
      = { st with fieldSet := field.Name :: st.fieldSet,
                  schema := st.schema ++ [field] } := by
  simp [addIfNotExists, h]

theorem addIfNotExists_inv {st : WalkState} (field : docField)
    (h : SchemaInv st) : SchemaInv (addIfNotExists st field) := by
  obtain ⟨hnd, hmem⟩ := h
  by_cases hf : field.Name ∈ st.fieldSet
  · rw [addIfNotExists_mem st field hf]; exact ⟨hnd, hmem⟩
  · rw [addIfNotExists_not_mem st field hf]
    refine ⟨?_, ?_⟩
    · simp only [List.map_append, List.map_cons, List.map_nil]
      refine List.Nodup.append hnd (List.nodup_singleton _) ?_
      intro a ha hb
      rcases List.mem_map.mp ha with ⟨g, hg, hga⟩
      rcases List.mem_singleton.mp hb with rfl
      exact hf (hga ▸ hmem g hg)
    · intro f hf'
      rcases List.mem_append.mp hf' with h1 | h1
      · exact List.mem_cons_of_mem _ (hmem f h1)
      · rcases List.mem_singleton.mp h1 with rfl
        exact List.mem_cons_self _ _

mutual
/-- The walker touches the accumulator only through `addIfNotExists`,
so it preserves the accumulator invariant (value case). -/
theorem getSchema_inv (pfx : String) (v : BsonValue) (st : WalkState)
    (h : SchemaInv st) : SchemaInv (getSchema pfx v st) := by
  cases v with
  | VNull => exact h
  | VInt _ => exact h
  | VInt8 _ => exact h
  | VInt16 _ => exact h
  | VInt32 _ => exact h
  | VInt64 _ => exact h
  | VUint _ => exact h
  | VUint8 _ => exact h
  | VUint16 _ => exact h
  | VUint32 _ => exact h
  | VUint64 _ => exact addIfNotExists_inv _ h
  | VFloat32 _ => exact h
  | VFloat64 _ => exact addIfNotExists_inv _ h
  | VString _ => exact addIfNotExists_inv _ h
  | VBool _ => exact addIfNotExists_inv _ h
  | VTime _ => exact addIfNotExists_inv _ h
  | VObjectId _ => exact addIfNotExists_inv _ h
  | VBinary _ _ => exact h
  | VBytes _ => exact addIfNotExists_inv _ h
  | VDoc d => exact getStructureSchema_inv pfx d st h
  | VArr xs => exact getSchemaElems_inv (pfx ++ "[]") xs 0 _ (addIfNotExists_inv _ h)
  | VOther typeName => exact addIfNotExists_inv _ h

/-- The walker preserves the accumulator invariant (element loop). -/
theorem getSchemaElems_inv (pfx : String) (xs : BsonArr) (i : Nat) (st : WalkState)
    (h : SchemaInv st) : SchemaInv (getSchemaElems pfx xs i st) := by
  cases xs with
  | nil => exact h
  | cons v rest =>
      by_cases hi : i < MaxTryRecords
      · rw [getSchemaElems, if_pos hi]
        exact getSchemaElems_inv pfx rest (i + 1) _ (getSchema_inv pfx v st h)
      · rw [getSchemaElems, if_neg hi]; exact h

/-- The walker preserves the accumulator invariant (document case). -/
theorem getStructureSchema_inv (pfx : String) (d : BsonD) (st : WalkState)
    (h : SchemaInv st) : SchemaInv (getStructureSchema pfx d st) := by
  cases d with
  | nil => exact h
  | cons n v rest =>
      by_cases hv : isNullValue v = true
      · rw [getStructureSchema, if_pos hv]
        exact getStructureSchema_inv pfx rest st h
      · rw [getStructureSchema, if_neg hv]
        exact getStructureSchema_inv pfx rest _ (getSchema_inv (childName pfx n) v st h)
end

theorem foldl_addIfNotExists_inv (fs : List docField) :
    ∀ st : WalkState, SchemaInv st → SchemaInv (fs.foldl addIfNotExists st) := by
  induction fs with
  | nil => intro st h; exact h
  | cons f rest ih => intro st h; exact ih _ (addIfNotExists_inv f h)

theorem foldl_walk_inv (docs : List BsonD) :
    ∀ st : WalkState, SchemaInv st →
      SchemaInv (docs.foldl (fun s result => getStructureSchema "" result s) st) := by
  induction docs with
  | nil => intro st h; exact h
  | cons d rest ih => intro st h; exact ih _ (getStructureSchema_inv "" d st h)

/-- C4: `addIfNotExists` is a no-op when the path is already recorded
and otherwise appends the entry and records membership; any sequence of
such insertions from a state satisfying the accumulator invariant keeps
entry names unique; and the full per-collection scan (any number of
sampled documents, walked from a fresh membership set) ends with
pairwise-distinct field names in the schema. -/
theorem addIfNotExists_first_wins_unique (st : WalkState) (fs : List docField)
    (h : SchemaInv st) :
    (∀ field : docField, field.Name ∈ st.fieldSet → addIfNotExists st field = st) ∧
    (∀ field : docField, field.Name ∉ st.fieldSet →
        addIfNotExists st field
          = { st with fieldSet := field.Name :: st.fieldSet,
                      schema := st.schema ++ [field] }) ∧
    SchemaInv (fs.foldl addIfNotExists st) ∧
    ((fs.foldl addIfNotExists st).schema.map docField.Name).Nodup ∧
    ∀ docs : List BsonD,
      (((docs.foldl (fun s result => getStructureSchema "" result s)
            emptyWalkState)).schema.map docField.Name).Nodup := by
  refine ⟨addIfNotExists_mem st, addIfNotExists_not_mem st, ?_, ?_, ?_⟩
  · exact foldl_addIfNotExists_inv fs st h
  · exact (foldl_addIfNotExists_inv fs st h).1
  · intro docs
    exact (foldl_walk_inv docs emptyWalkState schemaInv_empty).1

/-- Witness for C4 at a concrete state and insertion sequence: the
duplicate path `a` is dropped, the fresh path `b` is appended. -/
theorem addIfNotExists_first_wins_unique_witness :
    SchemaInv ⟨["a"], [⟨"a", "INTEGER"⟩], []⟩ ∧
    SchemaInv (List.foldl addIfNotExists ⟨["a"], [⟨"a", "INTEGER"⟩], []⟩
        [⟨"a", "STRING"⟩, ⟨"b", "BOOL"⟩]) :=
  ⟨⟨by decide, by decide⟩,
    (addIfNotExists_first_wins_unique ⟨["a"], [⟨"a", "INTEGER"⟩], []⟩
        [⟨"a", "STRING"⟩, ⟨"b", "BOOL"⟩] ⟨by decide, by decide⟩).2.2.1⟩

/-- C5: walking an array-valued field at path `pfx` performs exactly
one `addIfNotExists` of the entry `(pfx, ARRAY)` for the field itself
and then walks precisely the first `MaxTryRecords = 100` elements — no
element past the cap is ever inspected, whatever the array's length —
each against the derived path `pfx ++ "[]"`. -/
theorem getSchema_array_caps_elements (pfx : String) (xs : BsonArr) (st : WalkState) :
    getSchema pfx (.VArr xs) st
      = walkElems (pfx ++ "[]") (BsonArr.take MaxTryRecords xs)
          (addIfNotExists st ⟨pfx, "ARRAY"⟩) := by
  have h := getSchemaElems_eq_take (pfx ++ "[]") xs 0
    (addIfNotExists st ⟨pfx, "ARRAY"⟩) (Nat.zero_le _)
  simpa [getSchema] using h

theorem addIfNotExists_schema_sub {st : WalkState} {g : docField} :
    ∀ f ∈ (addIfNotExists st g).schema, f ∈ st.schema ∨ f = g := by
  intro f hf
  by_cases h : g.Name ∈ st.fieldSet
  · rw [addIfNotExists_mem _ _ h] at hf; exact Or.inl hf
  · rw [addIfNotExists_not_mem _ _ h] at hf
    rcases List.mem_append.mp hf with h1 | h1
    · exact Or.inl h1
    · exact Or.inr (List.mem_singleton.mp h1)

mutual
/-- Every entry the walker appends while processing a value reached
through path `pfx` has a name that extends `pfx` (value case). -/
theorem getSchema_names (pfx : String) (v : BsonValue) (st : WalkState) :
    ∀ f ∈ (getSchema pfx v st).schema, f ∈ st.schema ∨ ∃ r, f.Name = pfx ++ r := by
  cases v with
  | VNull => exact fun f hf => Or.inl hf
  | VInt _ => exact fun f hf => Or.inl hf
  | VInt8 _ => exact fun f hf => Or.inl hf
  | VInt16 _ => exact fun f hf => Or.inl hf
  | VInt32 _ => exact fun f hf => Or.inl hf
  | VInt64 _ => exact fun f hf => Or.inl hf
  | VUint _ => exact fun f hf => Or.inl hf
  | VUint8 _ => exact fun f hf => Or.inl hf
  | VUint16 _ => exact fun f hf => Or.inl hf
  | VUint32 _ => exact fun f hf => Or.inl hf
  | VUint64 _ =>
      intro f hf
      rcases addIfNotExists_schema_sub f hf with h | h
      · exact Or.inl h
      · exact Or.inr ⟨"", by simp [h]⟩
  | VFloat32 _ => exact fun f hf => Or.inl hf
  | VFloat64 _ =>
      intro f hf
      rcases addIfNotExists_schema_sub f hf with h | h
      · exact Or.inl h
      · exact Or.inr ⟨"", by simp [h]⟩
  | VString _ =>
      intro f hf
      rcases addIfNotExists_schema_sub f hf with h | h
      · exact Or.inl h
      · exact Or.inr ⟨"", by simp [h]⟩
  | VBool _ =>
      intro f hf
      rcases addIfNotExists_schema_sub f hf with h | h
      · exact Or.inl h
      · exact Or.inr ⟨"", by simp [h]⟩
  | VTime _ =>
      intro f hf
      rcases addIfNotExists_schema_sub f hf with h | h
      · exact Or.inl h
      · exact Or.inr ⟨"", by simp [h]⟩
  | VObjectId _ =>
      intro f hf
      rcases addIfNotExists_schema_sub f hf with h | h
      · exact Or.inl h
      · exact Or.inr ⟨"", by simp [h]⟩
  | VBinary _ _ => exact fun f hf => Or.inl hf
  | VBytes _ =>
      intro f hf
      rcases addIfNotExists_schema_sub f hf with h | h
      · exact Or.inl h
      · exact Or.inr ⟨"", by simp [h]⟩
  | VDoc d =>
      intro f hf
      rcases getStructureSchema_names pfx d st f hf with h | ⟨n, r, hr⟩
      · exact Or.inl h
      · by_cases hp : pfx = ""
        · subst hp
          refine Or.inr ⟨n ++ r, ?_⟩
          rw [hr]; simp [childName]
        · refine Or.inr ⟨"." ++ (n ++ r), ?_⟩
          rw [hr]; simp [childName, hp, String.append_assoc]
  | VArr xs =>
      intro f hf
      rcases getSchemaElems_names (pfx ++ "[]") xs 0 _ f hf with h | ⟨r, hr⟩
      · rcases addIfNotExists_schema_sub f h with h2 | h2
        · exact Or.inl h2
        · exact Or.inr ⟨"", by simp [h2]⟩
      · exact Or.inr ⟨"[]" ++ r, by rw [hr, String.append_assoc]⟩
  | VOther typeName =>
      intro f hf
      rcases addIfNotExists_schema_sub f hf with h | h
      · exact Or.inl h
      · exact Or.inr ⟨"", by simp [h]⟩

/-- Name extension (element loop). -/
theorem getSchemaElems_names (pfx : String) (xs : BsonArr) (i : Nat) (st : WalkState) :
    ∀ f ∈ (getSchemaElems pfx xs i st).schema, f ∈ st.schema ∨ ∃ r, f.Name = pfx ++ r := by
  cases xs with
  | nil => exact fun f hf => Or.inl hf
  | cons v rest =>
      intro f hf
      by_cases hi : i < MaxTryRecords
      · rw [getSchemaElems, if_pos hi] at hf
        rcases getSchemaElems_names pfx rest (i + 1) _ f hf with h | h
        · exact getSchema_names pfx v st f h
        · exact Or.inr h
      · rw [getSchemaElems, if_neg hi] at hf
        exact Or.inl hf

/-- Name extension (document case): every appended entry's name extends
some child path computed by `childName`. -/
theorem getStructureSchema_names (pfx : String) (d : BsonD) (st : WalkState) :
    ∀ f ∈ (getStructureSchema pfx d st).schema,
      f ∈ st.schema ∨ ∃ n r, f.Name = childName pfx n ++ r := by
  cases d with
  | nil => exact fun f hf => Or.inl hf
  | cons n v rest =>
      intro f hf
      by_cases hv : isNullValue v = true
      · rw [getStructureSchema, if_pos hv] at hf
        exact getStructureSchema_names pfx rest st f hf
      · rw [getStructureSchema, if_neg hv] at hf
        rcases getStructureSchema_names pfx rest _ f hf with h | h
        · rcases getSchema_names (childName pfx n) v st f h with h2 | ⟨r, hr⟩
          · exact Or.inl h2
          · exact Or.inr ⟨n, r, hr⟩
        · exact Or.inr h
end

/-- C6: an embedded-document field at (non-root) path `pfx` never
records an entry for the container itself: the walker delegates to the
field loop with `pfx` as the new parent, child paths are composed as
the local name under an empty parent and `parent ++ "." ++ localName`
otherwise, and every entry the recursion appends has a name of the
form `pfx ++ "." ++ r` — in particular never the bare `pfx`. -/
theorem getSchema_embedded_doc_no_container_entry (pfx : String) (d : BsonD)
    (st : WalkState) (hp : pfx ≠ "") :
    getSchema pfx (.VDoc d) st = getStructureSchema pfx d st ∧
    (∀ localName, childName "" localName = localName) ∧
    (∀ localName, childName pfx localName = pfx ++ "." ++ localName) ∧
    (∀ f ∈ (getStructureSchema pfx d st).schema,
        f ∈ st.schema ∨ ∃ r, f.Name = pfx ++ "." ++ r) ∧
    (∀ f ∈ (getStructureSchema pfx d st).schema, f ∉ st.schema → f.Name ≠ pfx) := by
  have hext : ∀ f ∈ (getStructureSchema pfx d st).schema,
      f ∈ st.schema ∨ ∃ r, f.Name = pfx ++ "." ++ r := by
    intro f hf
    rcases getStructureSchema_names pfx d st f hf with h | ⟨n, r, hr⟩
    · exact Or.inl h
    · refine Or.inr ⟨n ++ r, ?_⟩
      rw [hr]; simp [childName, hp, String.append_assoc]
  refine ⟨rfl, fun l => by simp [childName], fun l => by simp [childName, hp], hext, ?_⟩
  intro f hf hnot heq
  rcases hext f hf with h | ⟨r, hr⟩
  · exact hnot h
  · have hlen : f.Name.length = pfx.length + 1 + r.length := by
      rw [hr]
      simp [String.length_append]
      rfl
    rw [heq] at hlen
    omega

/-- Witness for C6 at the concrete field `b` holding `{"c": "x"}`. -/
theorem getSchema_embedded_doc_no_container_entry_witness :
    ("b" : String) ≠ "" ∧
    getSchema "b" (.VDoc (.cons "c" (.VString "x") .nil)) emptyWalkState
      = getStructureSchema "b" (.cons "c" (.VString "x") .nil) emptyWalkState :=
  ⟨by decide,
    (getSchema_embedded_doc_no_container_entry "b" (.cons "c" (.VString "x") .nil)
        emptyWalkState (by decide)).1⟩

/-- C9: `mgo.ErrNotFound` (no matching documents) yields the empty
schema and is not an error; a fetch that returns zero documents also
yields the empty schema; any other retrieval fault is fatal
(`log.Fatal`), modelled as `none` — no partial output. -/
theorem genCollectionSchema_empty_not_error :
    genCollectionSchema .errNotFound = some [] ∧
    genCollectionSchema (.results []) = some [] ∧
    genCollectionSchema .errOther = none :=
  ⟨rfl, rfl, rfl⟩

theorem addIfNotExists_sameEntries {s t : WalkState} (h : sameEntries s t)
    (f : docField) : sameEntries (addIfNotExists s f) (addIfNotExists t f) := by
  obtain ⟨h1, h2⟩ := h
  by_cases hm : f.Name ∈ t.fieldSet
  · rw [addIfNotExists_mem s f (by rw [h1]; exact hm), addIfNotExists_mem t f hm]
    exact ⟨h1, h2⟩
  · rw [addIfNotExists_not_mem s f (by rw [h1]; exact hm),
        addIfNotExists_not_mem t f hm]
    exact ⟨by rw [h1], by rw [h2]⟩

/-- For one scalar field value the inlined type switch of the second
variant and the `getSchema` dispatch of the primary variant make the
same change to the membership set and the entry list. -/
theorem classify_step (pfx n : String) (v : BsonValue) {s t : WalkState}
    (h : sameEntries s t) (hscalar : scalarValue v = true) :
    sameEntries (Variant.classifyValue v (childName pfx n) n s)
      (getSchema (childName pfx n) v t) := by
  cases v with
  | VNull => exact h
  | VInt _ => exact h
  | VInt8 _ => exact h
  | VInt16 _ => exact h
  | VInt32 _ => exact h
  | VInt64 _ => exact h
  | VUint _ => exact h
  | VUint8 _ => exact h
  | VUint16 _ => exact h
  | VUint32 _ => exact h
  | VUint64 _ => exact addIfNotExists_sameEntries h _
  | VFloat32 _ => exact h
  | VFloat64 _ => exact addIfNotExists_sameEntries h _
  | VString _ => exact addIfNotExists_sameEntries h _
  | VBool _ => exact addIfNotExists_sameEntries h _
  | VTime _ => exact addIfNotExists_sameEntries h _
  | VObjectId _ => exact addIfNotExists_sameEntries h _
  | VBinary _ _ => exact h
  | VBytes _ => exact addIfNotExists_sameEntries h _
  | VDoc dd => exact absurd hscalar (by simp [scalarValue])
  | VArr xs => exact absurd hscalar (by simp [scalarValue])
  | VOther typeName => exact addIfNotExists_sameEntries h _

/-- Unfolding equation for the second variant's field loop, proved by
cases since the value decides the nil check. -/
theorem variant_gSS_cons (pfx n : String) (v : BsonValue) (rest : BsonD)
    (st : WalkState) :
    Variant.getStructureSchema (.cons n v rest) pfx st
      = if isNullValue v = true then Variant.getStructureSchema rest pfx st
        else Variant.getStructureSchema rest pfx
          (Variant.classifyValue v (childName pfx n) n st) := by
  cases v <;> rfl

/-- On a flat document the two variants' walkers append the same
entries and record the same membership, from any pair of states that
already agree on those components. -/
theorem variant_eq_on_flat (pfx : String) (d : BsonD) :
    ∀ {s t : WalkState}, sameEntries s t → flatDoc d = true →
      sameEntries (Variant.getStructureSchema d pfx s) (getStructureSchema pfx d t) := by
  cases d with
  | nil => exact fun h _ => h
  | cons n v rest =>
      intro s t h hf
      have hflat : scalarValue v = true ∧ flatDoc rest = true := by
        simpa [flatDoc, Bool.and_eq_true] using hf
      rw [variant_gSS_cons, getStructureSchema]
      by_cases hv : isNullValue v = true
      · rw [if_pos hv, if_pos hv]
        exact variant_eq_on_flat pfx rest h hflat.2
      · rw [if_neg hv, if_neg hv]
        exact variant_eq_on_flat pfx rest (classify_step pfx n v h hflat.1) hflat.2

/-- C10: for flat documents (no embedded-document and no array values),
the same parent path and the same starting state, the walkers of the
two duplicated source variants record identical membership sets and
append the identical sequence of (name, type) entries. -/
theorem variant_walkers_agree_on_flat_docs (pfx : String) (d : BsonD)
    (st : WalkState) (h : flatDoc d = true) :
    (Variant.getStructureSchema d pfx st).schema
        = (getStructureSchema pfx d st).schema ∧
    (Variant.getStructureSchema d pfx st).fieldSet
        = (getStructureSchema pfx d st).fieldSet := by
  have hs := variant_eq_on_flat pfx d (s := st) (t := st) ⟨rfl, rfl⟩ h
  exact ⟨hs.2, hs.1⟩

/-- Witness for C10 on a concrete flat document. -/
theorem variant_walkers_agree_on_flat_docs_witness :
    flatDoc (.cons "a" (.VString "s") (.cons "u" (.VUint64 2) .nil)) = true ∧
    (Variant.getStructureSchema
        (.cons "a" (.VString "s") (.cons "u" (.VUint64 2) .nil)) "" emptyWalkState).schema
      = (getStructureSchema ""
        (.cons "a" (.VString "s") (.cons "u" (.VUint64 2) .nil)) emptyWalkState).schema :=
  ⟨rfl,
    (variant_walkers_agree_on_flat_docs ""
        (.cons "a" (.VString "s") (.cons "u" (.VUint64 2) .nil)) emptyWalkState rfl).1⟩

example : getSchema "d" (.VArr (.cons (.VString "s") .nil)) emptyWalkState
    = ⟨["d[]", "d"], [⟨"d", "ARRAY"⟩, ⟨"d[]", "STRING"⟩], []⟩ := rfl

example : Variant.getStructureSchema
    (.cons "b" (.VDoc (.cons "c" (.VString "x") .nil)) .nil) "" emptyWalkState
    = ⟨["b.c"], [⟨"b.c", "STRING"⟩], []⟩ := rfl
